import Mathlib

/-!
Shallow embedding of the corpus-retrieval subsystem of the `bodhibot-for-line-beta`
repository, together with proofs checking the natural-language specification
against the code.

The embedded source files are `src/cbeta_retrieval.py` (class `CBETARetriever`)
and `src/cbeta_tool.py` (class `CBETASearcher`).  Python strings are modelled as
`List Char`; Python dictionaries with permissive `.get` access are modelled as
structures with `Option` fields; numpy floating-point values are modelled by the
exact type `NpVal` (a rational, `inf`, `-inf`, or `nan`), with the square root of
`np.linalg.norm` abstracted as a function parameter `sqrt : ℚ → ℚ`.  Recursions
that scan a string are written with an explicit fuel argument (the fuel is the
string length, which is always sufficient) so that every definition is
structurally recursive and evaluates inside the kernel.
-/

/-- Python strings are modelled as lists of characters. -/
abbrev Str := List Char

/-- Coerce a Lean string literal into the character-list model. -/
def toL (s : String) : Str := s.toList

/-- Model of Python's whitespace class, used by `re`'s `\s`, `str.strip()` and
`str.split()`: the six ASCII whitespace characters.  (Python additionally treats
some rare Unicode characters as whitespace; they do not occur in the corpus or
in any claim and are not modelled.) -/
def pyIsSpace (c : Char) : Bool :=
  c = ' ' || c = '\t' || c = '\n' || c = '\r' || c = '\x0b' || c = '\x0c'

/-- Python `s.strip()`: remove leading and trailing whitespace. -/
def pyStrip (s : Str) : Str :=
  ((s.dropWhile pyIsSpace).reverse.dropWhile pyIsSpace).reverse

/-- Helper for `pySplit`: scan characters, accumulating the current word
(reversed) in `acc`. -/
def pySplitGo : List Char → List Char → List Str
  | [], acc => if acc.isEmpty then [] else [acc.reverse]
  | c :: rest, acc =>
    if pyIsSpace c then
      if acc.isEmpty then pySplitGo rest [] else acc.reverse :: pySplitGo rest []
    else pySplitGo rest (c :: acc)

/-- Python `s.split()` with no argument: split on runs of whitespace, with no
empty pieces. -/
def pySplit (s : Str) : List Str := pySplitGo s []

/-- Python `needle in hay` for strings: substring containment. -/
def pyContains (hay needle : Str) : Bool := decide (needle <:+: hay)

/-- Where the greedy match of `\n` + `\s*\n` reaches inside `rest` (the text
following an initial `'\n'`): the regex engine takes the maximal whitespace
prefix for `\s*`, then backtracks until the next character is `'\n'`; so there
is a match exactly when the maximal whitespace prefix of `rest` contains a
newline, and the match extends through the last newline of that prefix.
Returns the number of characters of `rest` consumed. -/
def nlRun (rest : List Char) : Option ℕ :=
  let ws := rest.takeWhile pyIsSpace
  if '\n' ∈ ws then some (ws.length - ws.reverse.findIdx (· == '\n')) else none

/-- `re.split(r'\n\s*\n', text)` from `_split_text_to_paragraphs` /
`_split_to_paragraphs` (both classes): returns the list of segments together
with the list of separators that were matched between them (`re.split` without a
capture group drops the separators; they are carried here so that losslessness
of the split can be stated).  `fuel` bounds the recursion; `fuel = cs.length`
is always enough because every step consumes at least one character. -/
def goBlankF : ℕ → List Char → List Char → List Str × List Str
  | 0, cs, acc => ([acc.reverse ++ cs], [])
  | _ + 1, [], acc => ([acc.reverse], [])
  | fuel + 1, c :: rest, acc =>
    if c = '\n' then
      match nlRun rest with
      | some k =>
        let r := goBlankF fuel (rest.drop k) []
        (acc.reverse :: r.1, (c :: rest.take k) :: r.2)
      | none => goBlankF fuel rest (c :: acc)
    else goBlankF fuel rest (c :: acc)

/-- Segments and separators of `re.split(r'\n\s*\n', text)`. -/
def blankSplitPair (text : Str) : List Str × List Str := goBlankF text.length text []

/-- `re.split(r'\n\s*\n', text)` (the separators are discarded, as in the
source, which uses no capture group here). -/
def blankSegs (text : Str) : List Str := (blankSplitPair text).1

/-- The terminal punctuation class `[。？！]` of `cbeta_retrieval.py`. -/
def isTermPunct (c : Char) : Bool := c = '。' || c = '？' || c = '！'

/-- First character of a list is whitespace. -/
def headIsWS : List Char → Bool
  | [] => false
  | c :: _ => pyIsSpace c

/-- `re.split(r'([。？！][\s\n]+)', text)` from
`CBETARetriever._split_text_to_paragraphs`: because the pattern has a capture
group, `re.split` returns the interleaved list
`[seg0, sep0, seg1, sep1, ..., segN]`.  `[\s\n]` is the same class as `\s`; the
greedy `+` consumes the maximal whitespace run after the punctuation mark, and
a match requires at least one whitespace character. -/
def puncCapF : ℕ → List Char → List Char → List Str
  | 0, cs, acc => [acc.reverse ++ cs]
  | _ + 1, [], acc => [acc.reverse]
  | fuel + 1, c :: rest, acc =>
    if isTermPunct c && headIsWS rest then
      let k := (rest.takeWhile pyIsSpace).length
      acc.reverse :: (c :: rest.take k) :: puncCapF fuel (rest.drop k) []
    else puncCapF fuel rest (c :: acc)

/-- The loop at lines 102-107 of `cbeta_retrieval.py`: walk the interleaved
`re.split` output two entries at a time, re-attaching each captured separator
to the segment before it (`paragraphs[i] + paragraphs[i+1]`, the last segment
alone if the length is odd). -/
def mergePairs : List Str → List Str
  | [] => []
  | [s] => [s]
  | s :: d :: rest => (s ++ d) :: mergePairs rest

/-- `CBETARetriever._split_text_to_paragraphs` (`src/cbeta_retrieval.py`
lines 91-114): split on blank lines; if that yields at most one segment,
re-split on terminal punctuation followed by whitespace, merging the captured
separators back; finally drop segments that are empty after stripping. -/
def split_text_to_paragraphs (text : Str) : List Str :=
  let paragraphs := blankSegs text
  let paragraphs :=
    if paragraphs.length ≤ 1 then mergePairs (puncCapF text.length text []) else paragraphs
  paragraphs.filter (fun p => !(pyStrip p).isEmpty)

/-- Match of the tool's sentence pattern `。(?:\s*\n|$)` starting just after a
`'。'`:  the first alternative behaves like `nlRun`; otherwise `$` matches at
the very end of the string (the `$`-before-trailing-newline case of Python's
`$` is subsumed by the first alternative, since that trailing newline is itself
whitespace).  Returns the number of characters consumed after the `'。'`. -/
def toolPuncMatch (rest : List Char) : Option ℕ :=
  match nlRun rest with
  | some k => some k
  | none => if rest.isEmpty then some 0 else none

/-- `re.split(r'。(?:\s*\n|$)', text)` from `CBETASearcher._split_to_paragraphs`
(`src/cbeta_tool.py` line 61): no capture group, so the separators are dropped
by `re.split`; they are returned alongside for the round-trip statement. -/
def toolPuncGoF : ℕ → List Char → List Char → List Str × List Str
  | 0, cs, acc => ([acc.reverse ++ cs], [])
  | _ + 1, [], acc => ([acc.reverse], [])
  | fuel + 1, c :: rest, acc =>
    if c = '。' then
      match toolPuncMatch rest with
      | some k =>
        let r := toolPuncGoF fuel (rest.drop k) []
        (acc.reverse :: r.1, (c :: rest.take k) :: r.2)
      | none => toolPuncGoF fuel rest (c :: acc)
    else toolPuncGoF fuel rest (c :: acc)

/-- The list comprehension at `src/cbeta_tool.py` line 63: append `'。'` back to
every segment except the last, unless the segment already ends with `'。'`. -/
def toolReadd : List Str → List Str
  | [] => []
  | [p] => [p]
  | p :: q :: rest =>
    (if p.getLast? = some '。' then p else p ++ ['。']) :: toolReadd (q :: rest)

/-- `CBETASearcher._split_to_paragraphs` (`src/cbeta_tool.py` lines 54-68). -/
def tool_split_to_paragraphs (text : Str) : List Str :=
  let paragraphs := blankSegs text
  let paragraphs :=
    if paragraphs.length ≤ 1 then toolReadd (toolPuncGoF text.length text []).1 else paragraphs
  paragraphs.filter (fun p => !(pyStrip p).isEmpty)

/-- Decimal digit to character. -/
def digitChar : ℕ → Char
  | 0 => '0' | 1 => '1' | 2 => '2' | 3 => '3' | 4 => '4'
  | 5 => '5' | 6 => '6' | 7 => '7' | 8 => '8' | 9 => '9'
  | _ => '*'

/-- Little-endian decimal digits of `n`, with fuel (`fuel = n` suffices). -/
def natDigitsF : ℕ → ℕ → List ℕ
  | 0, _ => []
  | _ + 1, 0 => []
  | fuel + 1, n + 1 => ((n + 1) % 10) :: natDigitsF fuel ((n + 1) / 10)

/-- Python `str(n)` for a non-negative integer, as used by the f-string
`f"{doc_id}_p{idx}"`. -/
def natChars (n : ℕ) : Str :=
  if n = 0 then ['0'] else ((natDigitsF n n).map digitChar).reverse

/-- A numpy floating-point value, modelled exactly: a (rational) number,
positive or negative infinity, or NaN. -/
inductive NpVal where
  | num (q : ℚ)
  | inf
  | ninf
  | nan
deriving DecidableEq

/-- A CBETA JSON document as loaded by `_load_documents` / `_load_all_jsons`:
a Python dict accessed only through `doc.get('id'/'title'/'content', '')`. -/
structure PyDoc where
  id : Option Str := none
  title : Option Str := none
  content : Option Str := none
deriving DecidableEq

/-- A paragraph record as built by `_preprocess_paragraphs`, possibly extended
by the search code with `match_type` / `matched_words` (keyword mode, kept as
the Python strings "full" / "partial") or `similarity` (embedding mode). -/
structure Para where
  id : Str
  doc_id : Str
  title : Str
  content : Str
  paragraph_index : ℕ
  match_type : Option Str := none
  matched_words : Option ℕ := none
  similarity : Option NpVal := none
deriving DecidableEq

/-- Common shape of `CBETARetriever._preprocess_paragraphs`
(`src/cbeta_retrieval.py` lines 66-89) and
`CBETASearcher._preprocess_paragraphs` (`src/cbeta_tool.py` lines 34-52): the
two methods are textually identical up to the segmentation routine they call,
which is passed here as `splitter`. -/
def preprocessParagraphs (splitter : Str → List Str) (docs : List PyDoc) : List Para :=
  docs.flatMap (fun doc =>
    let content := doc.content.getD []
    ((splitter content).enum.filterMap (fun ip =>
      if (pyStrip ip.2).isEmpty then none
      else some {
        id := doc.id.getD [] ++ toL "_p" ++ natChars ip.1
        doc_id := doc.id.getD []
        title := doc.title.getD []
        content := pyStrip ip.2
        paragraph_index := ip.1 })))

/-- `CBETARetriever._preprocess_paragraphs`. -/
def CBETARetriever_preprocess_paragraphs (docs : List PyDoc) : List Para :=
  preprocessParagraphs split_text_to_paragraphs docs

/-- `CBETASearcher._preprocess_paragraphs`. -/
def CBETASearcher_preprocess_paragraphs (docs : List PyDoc) : List Para :=
  preprocessParagraphs tool_split_to_paragraphs docs

/-- `np.dot` of two vectors (exact rationals; numpy would raise on a length
mismatch, which never happens in reachable states). -/
def dotQ (a b : List ℚ) : ℚ := (List.zipWith (· * ·) a b).sum

/-- Sum of squares of a vector; `np.linalg.norm v = sqrt (sumSq v)`. -/
def sumSq (v : List ℚ) : ℚ := (v.map (fun x => x * x)).sum

/-- numpy elementwise float division: finite quotient when the denominator is
nonzero, otherwise `0/0 = nan` and `±x/0 = ±inf` (numpy emits a warning, not an
exception). -/
def npDiv (x d : ℚ) : NpVal :=
  if d = 0 then (if x = 0 then .nan else if 0 < x then .inf else .ninf) else .num (x / d)

/-- Lines 153-155 of `src/cbeta_retrieval.py` (identically lines 96-98 of
`src/cbeta_tool.py`):
`np.dot(self.embeddings, q) / (np.linalg.norm(self.embeddings, axis=1) * np.linalg.norm(q))`,
with `sqrt` the square-root function used by `np.linalg.norm`. -/
def similarityList (sqrt : ℚ → ℚ) (embeddings : List (List ℚ)) (qv : List ℚ) : List NpVal :=
  embeddings.map (fun e => npDiv (dotQ e qv) (sqrt (sumSq e) * sqrt (sumSq qv)))

/-- Float negation, as applied by `np.argsort(-similarities)`. -/
def npNeg : NpVal → NpVal
  | .num q => .num (-q)
  | .inf => .ninf
  | .ninf => .inf
  | .nan => .nan

/-- Comparison used by the model of `np.argsort` (ascending): numpy sorts NaN
values to the end of the array, so NaN compares above every other value. -/
def npLeB : NpVal → NpVal → Bool
  | _, .nan => true
  | .nan, _ => false
  | .ninf, _ => true
  | _, .ninf => false
  | .num a, .num b => decide (a ≤ b)
  | .num _, .inf => true
  | .inf, _ => true

/-- Propositional form of `npLeB`. -/
def npLe (a b : NpVal) : Prop := npLeB a b = true

instance : DecidableRel npLe := fun a b => by unfold npLe; infer_instance

/-- Order on enumerated similarity entries used to model `np.argsort`. -/
def idxLe (a b : ℕ × NpVal) : Prop := npLe (npNeg a.2) (npNeg b.2)

instance : DecidableRel idxLe := fun a b => by unfold idxLe npLe; infer_instance

/-- `np.argsort(-sims)`: indices of `sims` ordered by descending similarity,
NaN entries last.  The sort is modelled as a stable sort; numpy's default
`kind='quicksort'` is not documented to be stable, so no claim about the order
of equal similarities is derived from this model. -/
def argsortNeg (sims : List NpVal) : List ℕ :=
  (List.insertionSort idxLe sims.enum).map Prod.fst

/-- In-memory state shared by both engine classes after `__init__`: loaded
documents, preprocessed paragraphs, per-paragraph embedding matrix, and the
embedding-availability flag. -/
structure Engine where
  docs : List PyDoc
  paras : List Para
  embeddings : List (List ℚ)
  has_embedding : Bool

/-- `CBETARetriever.search_by_embedding` (`src/cbeta_retrieval.py` lines
147-167), with the query already encoded to `qv` (the `model.encode` call; its
possible runtime failure is modelled at the `_run` boundary).  Each selected
paragraph is copied and annotated with its similarity score. -/
def CBETARetriever_search_by_embedding (sqrt : ℚ → ℚ) (st : Engine) (qv : List ℚ)
    (top_k : ℕ) : List Para :=
  let sims := similarityList sqrt st.embeddings qv
  ((argsortNeg sims).take top_k).filterMap (fun i =>
    (st.paras.get? i).map (fun p => { p with similarity := sims.get? i }))

/-- Number of query words occurring in a paragraph content:
`sum(1 for word in query_words if word in para['content'])` (counted with
multiplicity in the query-word list). -/
def countMatched (qw : List Str) (content : Str) : ℕ :=
  qw.countP (fun w => pyContains content w)

/-- Attach `match_type = 'full'` to a copied paragraph record. -/
def tagFull (p : Para) : Para := { p with match_type := some (toL "full") }

/-- Attach `match_type = 'partial'` and the matched word count. -/
def tagPart (p : Para) (m : ℕ) : Para :=
  { p with match_type := some (toL "partial"), matched_words := some m }

/-- The second (partial-match) loop of `CBETARetriever.search_by_keywords`
(`src/cbeta_retrieval.py` lines 185-199): skip paragraphs whose id is already
in the results, add those matching at least `max(1, len(query_words)//2)` query
words, and break as soon as the result list reaches `top_k`. -/
def secondPassLoop (qw : List Str) (top_k : ℕ) : List Para → List Para → List Para
  | [], results => results
  | p :: rest, results =>
    if results.any (fun r => r.id == p.id) then secondPassLoop qw top_k rest results
    else if max 1 (qw.length / 2) ≤ countMatched qw p.content then
      let results' := results ++ [tagPart p (countMatched qw p.content)]
      if top_k ≤ results'.length then results' else secondPassLoop qw top_k rest results'
    else secondPassLoop qw top_k rest results

/-- Sort key comparison of `results.sort(key=lambda x: (0 if
x.get('match_type') == 'full' else 1, -x.get('matched_words', 0)))`. -/
def matchTypeKey (p : Para) : ℕ := if p.match_type = some (toL "full") then 0 else 1

/-- `x.get('matched_words', 0)`. -/
def matchedWordsOf (p : Para) : ℕ := p.matched_words.getD 0

/-- The sort order induced by the key tuple: full matches first, then by
matched word count descending.  Python's `list.sort` is a stable sort, modelled
below by stable insertion sort. -/
def resLe (x y : Para) : Prop :=
  matchTypeKey x < matchTypeKey y ∨
    (matchTypeKey x = matchTypeKey y ∧ matchedWordsOf y ≤ matchedWordsOf x)

instance : DecidableRel resLe := fun x y => by unfold resLe; infer_instance

instance : IsTotal Para resLe := ⟨by intro a b; unfold resLe; omega⟩

instance : IsTrans Para resLe := ⟨by intro a b c; unfold resLe; omega⟩

/-- `CBETARetriever.search_by_keywords` (`src/cbeta_retrieval.py` lines
169-207). -/
def CBETARetriever_search_by_keywords (paras : List Para) (query : Str) (top_k : ℕ) :
    List Para :=
  let query_words := pySplit query
  let results := (paras.filter (fun p => pyContains p.content query)).map tagFull
  let results :=
    if results.length < top_k then secondPassLoop query_words top_k paras results else results
  (List.insertionSort resLe results).take top_k

/-- The document-level fallback of `CBETASearcher.search` (`src/cbeta_tool.py`
lines 130-146): scan whole documents for the query, re-segment matching
documents, and collect segments containing the query. -/
def CBETASearcher_doc_fallback (docs : List PyDoc) (query : Str) : List Para :=
  docs.flatMap (fun doc =>
    let content := doc.content.getD []
    if pyContains content query then
      ((tool_split_to_paragraphs content).enum.filterMap (fun ip =>
        if pyContains ip.2 query then
          some {
            id := doc.id.getD [] ++ toL "_p" ++ natChars ip.1
            doc_id := doc.id.getD []
            title := doc.title.getD []
            content := pyStrip ip.2
            paragraph_index := ip.1 }
        else none))
    else [])

/-- The keyword part of `CBETASearcher.search` (`src/cbeta_tool.py` lines
117-148): exact-match pass; if empty, any-query-word pass; if still empty, the
document-level fallback; truncate to `top_k`. -/
def CBETASearcher_keyword (st : Engine) (query : Str) (top_k : ℕ) : List Para :=
  let results := st.paras.filter (fun p => pyContains p.content query)
  let results :=
    if results.isEmpty then
      st.paras.filter (fun p => (pySplit query).any (fun q => pyContains p.content q))
    else results
  let results := if results.isEmpty then CBETASearcher_doc_fallback st.docs query else results
  results.take top_k

/-- `CBETASearcher.search_by_embedding` (`src/cbeta_tool.py` lines 88-104):
like the retriever version but the selected paragraphs are returned without a
similarity annotation. -/
def CBETASearcher_search_by_embedding (sqrt : ℚ → ℚ) (st : Engine) (qv : List ℚ)
    (top_k : ℕ) : List Para :=
  ((argsortNeg (similarityList sqrt st.embeddings qv)).take top_k).filterMap
    (fun i => st.paras.get? i)

/-- `CBETASearcher.search` (`src/cbeta_tool.py` lines 106-148).  The
`try/except` around the embedding call is modelled by the fallible `encode`:
on failure the error is printed and control falls through to the keyword
search; the engine state (in particular `has_embedding`) is not modified. -/
def CBETASearcher_search (sqrt : ℚ → ℚ) (encode : Str → Except Str (List ℚ))
    (st : Engine) (query : Str) (top_k : ℕ) : List Para :=
  if st.has_embedding then
    match encode query with
    | .ok qv => CBETASearcher_search_by_embedding sqrt st qv top_k
    | .error _ => CBETASearcher_keyword st query top_k
  else CBETASearcher_keyword st query top_k

/-- The dictionary argument of `format_reference` /
`format_cbeta_reference`, accessed only through
`doc.get('doc_id', ...)`, `doc.get('id', '')` and `doc.get('title', '')`. -/
structure RefDict where
  id : Option Str := none
  doc_id : Option Str := none
  title : Option Str := none

/-- `CBETARetriever.format_reference` (`src/cbeta_retrieval.py` lines 249-266);
`CBETASearcher.format_cbeta_reference` (`src/cbeta_tool.py` lines 150-163) is
textually identical up to the label `CBETA編號` vs `CBETA编号` inside the
formatted string. -/
def CBETARetriever_format_reference (docs : List PyDoc) (doc : RefDict) : Str :=
  let doc_id := doc.doc_id.getD (doc.id.getD [])
  let title := doc.title.getD []
  let title :=
    if title.isEmpty ∧ ¬doc_id.isEmpty then
      match docs.find? (fun d => d.id.getD [] == doc_id) with
      | some d => d.title.getD []
      | none => title
    else title
  title ++ toL "（CBETA编号：" ++ doc_id ++ toL "）" ++ toL "\n" ++
    toL "https://cbetaonline.dila.edu.tw/zh/" ++ doc_id

/-- View a paragraph record as the dictionary passed to `format_reference`. -/
def refDictOfPara (p : Para) : RefDict :=
  { id := some p.id, doc_id := some p.doc_id, title := some p.title }

/-- The result-formatting loop of `CBETARetriever._run`
(`src/cbeta_retrieval.py` lines 228-242). -/
def CBETARetriever_format_results (docs : List PyDoc) (results : List Para) : Str :=
  List.intercalate (toL "\n\n---\n\n")
    (results.enum.map (fun ir =>
      toL "【经文 " ++ natChars (ir.1 + 1) ++ toL "】\n" ++ ir.2.content ++
        toL "\n\n【出处】\n" ++ CBETARetriever_format_reference docs (refDictOfPara ir.2)))

/-- `CBETARetriever._run` (`src/cbeta_retrieval.py` lines 209-247): with
`top_k = 3`, search by embedding when available, otherwise by keywords; any
exception inside the `try` block (modelled by a failing `encode`) is re-raised
as `ToolException(f"检索经文时出错: {e}")`, modelled as `Except.error`. -/
def CBETARetriever_run (sqrt : ℚ → ℚ) (encode : Str → Except Str (List ℚ))
    (st : Engine) (query : Str) : Except Str Str :=
  let attempt : Except Str (List Para) :=
    if st.has_embedding then
      (encode query).map (fun qv => CBETARetriever_search_by_embedding sqrt st qv 3)
    else .ok (CBETARetriever_search_by_keywords st.paras query 3)
  match attempt with
  | .error e => .error (toL "检索经文时出错: " ++ e)
  | .ok results =>
    .ok (if results.isEmpty then
           toL "未找到相关经文。请尝试使用不同的关键词或更通用的描述。"
         else CBETARetriever_format_results st.docs results)

/-- Re-join split segments with their separators:
`interleave [s0,...,sn] [d0,...,d(n-1)] = s0 ++ d0 ++ s1 ++ ... ++ sn`. -/
def interleave : List Str → List Str → Str
  | [], _ => []
  | s :: _, [] => s
  | s :: segs, d :: seps => s ++ d ++ interleave segs seps

-- Sanity checks of the embedding on the spec's example scenarios.
example :
    split_text_to_paragraphs (toL "觀自在菩薩。\n\n行深般若波羅蜜多時。") =
      [toL "觀自在菩薩。", toL "行深般若波羅蜜多時。"] := by decide

example :
    split_text_to_paragraphs (toL "觀自在菩薩。 行深時。\n般若。") =
      [toL "觀自在菩薩。 ", toL "行深時。\n", toL "般若。"] := by decide

example : tool_split_to_paragraphs (toL "觀自在菩薩。\n行深時。") =
      [toL "觀自在菩薩。", toL "行深時。"] := by decide

example : pySplit (toL " 因果  緣起 ") = [toL "因果", toL "緣起"] := by decide

example : natChars 0 = ['0'] ∧ natChars 10 = toL "10" ∧ natChars 123 = toL "123" := by decide

/-! ### Helper lemmas for the keyword-search claims -/

/-- The empty string is a substring of every string (Python `"" in s`). -/
theorem pyContains_nil (hay : Str) : pyContains hay [] = true :=
  decide_eq_true List.nil_infix

/-- With an empty query-word list the partial-match loop adds nothing: the
threshold `max(1, 0//2) = 1` can never be reached by `matched_words = 0`. -/
theorem secondPassLoop_nil_qw (k : ℕ) :
    ∀ (rest res : List Para), secondPassLoop [] k rest res = res := by
  intro rest
  induction rest with
  | nil => intro res; rfl
  | cons p rest ih =>
    intro res
    unfold secondPassLoop
    by_cases h : (res.any fun r => r.id == p.id) <;>
      simp [h, ih, countMatched]

/-- Key of a full-tagged paragraph is 0. -/
theorem matchTypeKey_tagFull (p : Para) : matchTypeKey (tagFull p) = 0 := by
  simp [matchTypeKey, tagFull]

/-- Key of a partial-tagged paragraph is 1. -/
theorem matchTypeKey_tagPart (p : Para) (m : ℕ) : matchTypeKey (tagPart p m) = 1 := by
  simp [matchTypeKey, tagPart, toL]

/-- C10: For the empty query string in keyword mode, every paragraph passes the
full-match test (the empty string is contained in every content), so
`search_by_keywords` returns the first `top_k` corpus paragraphs, all with
`match_type = 'full'`.  The hypothesis states that the corpus paragraphs carry
no `matched_words` key, which holds of every record built by
`_preprocess_paragraphs`. -/
theorem keyword_search_empty_query (paras : List Para) (k : ℕ)
    (hmw : ∀ p ∈ paras, p.matched_words = none) :
    CBETARetriever_search_by_keywords paras (toL "") k = (paras.take k).map tagFull := by
  unfold CBETARetriever_search_by_keywords
  have hq : toL "" = ([] : Str) := rfl
  rw [hq]
  have h1 : (paras.filter fun p => pyContains p.content []) = paras :=
    List.filter_eq_self.mpr (fun a _ => pyContains_nil _)
  have h2 : pySplit ([] : Str) = [] := rfl
  rw [h1, h2]
  have h3 : ∀ k', secondPassLoop [] k' paras (paras.map tagFull) = paras.map tagFull :=
    fun k' => secondPassLoop_nil_qw k' paras (paras.map tagFull)
  have hsorted : List.Sorted resLe (paras.map tagFull) := by
    rw [List.Sorted, List.pairwise_map]
    refine List.pairwise_of_forall_mem_list (fun a ha b hb => ?_)
    right
    constructor
    · rw [matchTypeKey_tagFull, matchTypeKey_tagFull]
    · simp [matchedWordsOf, tagFull, hmw a ha, hmw b hb]
  by_cases hlen : (paras.map tagFull).length < k
  · simp only [if_pos hlen, h3, List.Sorted.insertionSort_eq hsorted, ← List.map_take]
  · simp only [if_neg hlen, List.Sorted.insertionSort_eq hsorted, ← List.map_take]

/-- A sample paragraph record, used to instantiate theorems with hypotheses at
concrete inputs. -/
def samplePara (s c : String) : Para :=
  { id := toL s, doc_id := toL s, title := [], content := toL c, paragraph_index := 0 }

/-- Witness for `keyword_search_empty_query` at a concrete two-paragraph
corpus. -/
theorem keyword_search_empty_query_witness :
    CBETARetriever_search_by_keywords [samplePara "A_p0" "x", samplePara "A_p1" "y"]
        (toL "") 1 =
      ([samplePara "A_p0" "x", samplePara "A_p1" "y"].take 1).map tagFull :=
  keyword_search_empty_query _ 1 (by decide)

/-- A paragraph whose stored match type is `'partial'` has sort key 1. -/
theorem matchTypeKey_of_part {p : Para} (h : p.match_type = some (toL "partial")) :
    matchTypeKey p = 1 := by
  unfold matchTypeKey
  rw [h, if_neg (by decide)]

/-- A paragraph whose stored match type is `'full'` has sort key 0. -/
theorem matchTypeKey_of_full {p : Para} (h : p.match_type = some (toL "full")) :
    matchTypeKey p = 0 := by
  unfold matchTypeKey
  rw [h, if_pos rfl]

/-- C4: in keyword mode, whenever the returned sequence contains a full match
and a partial match, the full match occupies a strictly earlier position. -/
theorem keyword_full_before_part (paras : List Para) (query : Str) (k i j : ℕ)
    (hi : i < (CBETARetriever_search_by_keywords paras query k).length)
    (hj : j < (CBETARetriever_search_by_keywords paras query k).length)
    (hpi : ((CBETARetriever_search_by_keywords paras query k).get ⟨i, hi⟩).match_type =
      some (toL "partial"))
    (hpj : ((CBETARetriever_search_by_keywords paras query k).get ⟨j, hj⟩).match_type =
      some (toL "full")) :
    j < i := by
  have key : ∀ (res : List Para) (n : ℕ),
      List.Sorted resLe ((List.insertionSort resLe res).take n) := fun res n =>
    List.Pairwise.sublist (List.take_sublist _ _) (List.sorted_insertionSort resLe _)
  have hsorted : List.Sorted resLe (CBETARetriever_search_by_keywords paras query k) := by
    unfold CBETARetriever_search_by_keywords
    exact key _ _
  rcases Nat.lt_trichotomy i j with h | h | h
  · exfalso
    have hrel := hsorted.rel_get_of_lt (a := ⟨i, hi⟩) (b := ⟨j, hj⟩) h
    unfold resLe at hrel
    rw [matchTypeKey_of_part hpi, matchTypeKey_of_full hpj] at hrel
    omega
  · exfalso
    subst h
    exact absurd (hpi.symm.trans hpj) (by decide)
  · exact h

/-- Witness for `keyword_full_before_part`: a corpus with one full and one
partial match; the full match sits at position 0, the partial at position 1. -/
theorem keyword_full_before_part_witness : (0 : ℕ) < 1 :=
  keyword_full_before_part [samplePara "A" "a b", samplePara "B" "q a"] (toL "q a") 5 1 0
    (by decide) (by decide) (by decide) (by decide)

/-- C9: the reference formatter is a total function (it never raises, in
particular not on a missing title) and always returns a string of the shape
`"<title>（CBETA编号：<doc_id>）\n<url-with-doc_id>"`; when the incoming record
has no usable title, the title segment is the one looked up in the original
document list by `doc_id` (first match), or empty when the lookup finds
nothing or `doc_id` itself is empty. -/
theorem format_reference_shape (docs : List PyDoc) (r : RefDict) :
    ∃ t : Str,
      CBETARetriever_format_reference docs r =
        t ++ toL "（CBETA编号：" ++ r.doc_id.getD (r.id.getD []) ++ toL "）" ++ toL "\n" ++
          toL "https://cbetaonline.dila.edu.tw/zh/" ++ r.doc_id.getD (r.id.getD []) ∧
      (r.title.getD [] = [] →
        t = if (r.doc_id.getD (r.id.getD [])).isEmpty then []
            else
              match docs.find? (fun d => d.id.getD [] == r.doc_id.getD (r.id.getD [])) with
              | some d => d.title.getD []
              | none => []) := by
  unfold CBETARetriever_format_reference
  dsimp only
  by_cases hcond :
      (r.title.getD []).isEmpty ∧ ¬(r.doc_id.getD (r.id.getD [])).isEmpty
  · rw [if_pos hcond]
    cases hfind : docs.find? (fun d => d.id.getD [] == r.doc_id.getD (r.id.getD [])) with
    | some d =>
      refine ⟨d.title.getD [], rfl, fun _ => ?_⟩
      rw [if_neg hcond.2]
    | none =>
      refine ⟨r.title.getD [], rfl, fun h => ?_⟩
      rw [if_neg hcond.2, h]
  · rw [if_neg hcond]
    refine ⟨r.title.getD [], rfl, fun h => ?_⟩
    have hde : (r.doc_id.getD (r.id.getD [])).isEmpty = true := by
      by_contra hne
      exact hcond ⟨by rw [h]; rfl, hne⟩
    rw [if_pos hde, h]

/-- Witness for `format_reference_shape`: a paragraph record with an empty
title, resolved by lookup in the document list. -/
theorem format_reference_shape_witness :
    ∃ t : Str,
      CBETARetriever_format_reference
          [{ id := some (toL "T01"), title := some (toL "心經"), content := none }]
          { id := none, doc_id := some (toL "T01"), title := some [] } =
        t ++ toL "（CBETA编号：" ++ toL "T01" ++ toL "）" ++ toL "\n" ++
          toL "https://cbetaonline.dila.edu.tw/zh/" ++ toL "T01" ∧
      ((toL "T01" : Str) ≠ [] → t = toL "心經") := by
  obtain ⟨t, h1, h2⟩ :=
    format_reference_shape
      [{ id := some (toL "T01"), title := some (toL "心經"), content := none }]
      { id := none, doc_id := some (toL "T01"), title := some [] }
  exact ⟨t, h1, fun _ => by rw [h2 rfl]; decide⟩

/-- Every segment produced by the tool segmenter is non-empty after
stripping (the final filter of `_split_to_paragraphs`). -/
theorem tool_split_strip_ne {t : Str} {p : Str} (hp : p ∈ tool_split_to_paragraphs t) :
    (pyStrip p).isEmpty = false := by
  have h : p ∈ (if (blankSegs t).length ≤ 1 then toolReadd (toolPuncGoF t.length t []).1
      else blankSegs t).filter (fun q => !(pyStrip q).isEmpty) := hp
  simpa using (List.mem_filter.mp h).2

/-- If preprocessing a document list yields no paragraph at all, then the
segmenter returned no segment for any document (it cannot return segments that
are all skipped, because its own final filter already removes empty-after-strip
segments). -/
theorem tool_preprocess_nil {docs : List PyDoc}
    (h : CBETASearcher_preprocess_paragraphs docs = []) :
    ∀ doc ∈ docs, tool_split_to_paragraphs (doc.content.getD []) = [] := by
  unfold CBETASearcher_preprocess_paragraphs preprocessParagraphs at h
  intro doc hdoc
  have hblock := List.flatMap_eq_nil_iff.mp h doc hdoc
  dsimp only at hblock
  cases hsplit : tool_split_to_paragraphs (doc.content.getD []) with
  | nil => rfl
  | cons p rest =>
    rw [hsplit] at hblock
    have hg : (pyStrip p).isEmpty = false :=
      tool_split_strip_ne (t := doc.content.getD [])
        (by rw [hsplit]; exact List.mem_cons_self _ _)
    have henum : (p :: rest).enum = (0, p) :: rest.enumFrom 1 := rfl
    rw [henum, List.filterMap_cons] at hblock
    simp [hg] at hblock

/-- If no document segments into anything, the document-level fallback of the
tool search returns no result. -/
theorem doc_fallback_nil {docs : List PyDoc} (query : Str)
    (h : ∀ doc ∈ docs, tool_split_to_paragraphs (doc.content.getD []) = []) :
    CBETASearcher_doc_fallback docs query = [] := by
  unfold CBETASearcher_doc_fallback
  rw [List.flatMap_eq_nil_iff]
  intro doc hdoc
  dsimp only
  rw [h doc hdoc]
  simp

/-- The tool keyword search on an empty paragraph list returns nothing
(given that the document fallback also finds nothing). -/
theorem tool_keyword_nil (st : Engine) (query : Str) (k : ℕ) (hp : st.paras = [])
    (hd : CBETASearcher_doc_fallback st.docs query = []) :
    CBETASearcher_keyword st query k = [] := by
  unfold CBETASearcher_keyword
  dsimp only
  rw [hp]
  simp [hd]

/-- An engine state with an empty corpus. -/
def sampleEngineEmpty : Engine :=
  { docs := [], paras := [], embeddings := [], has_embedding := true }

/-- C5: every search entry point returns at most `top_k` results, and returns
no result at all on an empty corpus.  The hypotheses are the state invariants
established by `__init__`: one embedding per paragraph, and the paragraph list
being the preprocessing of the loaded documents. -/
theorem search_top_k_bound (sqrt : ℚ → ℚ) (encode : Str → Except Str (List ℚ))
    (st : Engine) (paras : List Para) (qv : List ℚ) (query : Str) (k : ℕ)
    (hemb : st.embeddings.length = st.paras.length)
    (hpre : st.paras = CBETASearcher_preprocess_paragraphs st.docs) :
    (CBETARetriever_search_by_keywords paras query k).length ≤ k ∧
    (CBETARetriever_search_by_embedding sqrt st qv k).length ≤ k ∧
    (CBETASearcher_search sqrt encode st query k).length ≤ k ∧
    (paras = [] → CBETARetriever_search_by_keywords paras query k = []) ∧
    (st.paras = [] →
      CBETARetriever_search_by_embedding sqrt st qv k = [] ∧
      CBETASearcher_search sqrt encode st query k = []) := by
  have hkwlen : ∀ (ps : List Para) (q : Str) (n : ℕ),
      (CBETARetriever_search_by_keywords ps q n).length ≤ n := by
    intro ps q n
    unfold CBETARetriever_search_by_keywords
    dsimp only
    exact List.length_take_le _ _
  have htklen : ∀ (q : Str) (n : ℕ), (CBETASearcher_keyword st q n).length ≤ n := by
    intro q n
    unfold CBETASearcher_keyword
    dsimp only
    exact List.length_take_le _ _
  have hreblen : (CBETARetriever_search_by_embedding sqrt st qv k).length ≤ k := by
    unfold CBETARetriever_search_by_embedding
    dsimp only
    exact le_trans (List.length_filterMap_le _ _) (List.length_take_le _ _)
  have htelen : ∀ (v : List ℚ) (n : ℕ),
      (CBETASearcher_search_by_embedding sqrt st v n).length ≤ n := by
    intro v n
    unfold CBETASearcher_search_by_embedding
    exact le_trans (List.length_filterMap_le _ _) (List.length_take_le _ _)
  have htslen : (CBETASearcher_search sqrt encode st query k).length ≤ k := by
    unfold CBETASearcher_search
    by_cases h : st.has_embedding = true
    · rw [if_pos h]
      cases encode query with
      | ok qv' => exact htelen qv' k
      | error e => exact htklen query k
    · rw [if_neg h]
      exact htklen query k
  have hkwnil : paras = [] → CBETARetriever_search_by_keywords paras query k = [] := by
    intro hp
    subst hp
    unfold CBETARetriever_search_by_keywords
    dsimp only
    by_cases h : (0 : ℕ) < k <;> simp [h, secondPassLoop]
  have hembnil : st.paras = [] → st.embeddings = [] := fun hp =>
    List.length_eq_zero.mp (by rw [hemb, hp]; rfl)
  have hrebnil : st.paras = [] → CBETARetriever_search_by_embedding sqrt st qv k = [] := by
    intro hp
    unfold CBETARetriever_search_by_embedding
    dsimp only
    rw [hembnil hp]
    simp [similarityList, argsortNeg]
  have htsnil : st.paras = [] → CBETASearcher_search sqrt encode st query k = [] := by
    intro hp
    have hkw : CBETASearcher_keyword st query k = [] :=
      tool_keyword_nil st query k hp
        (doc_fallback_nil query (tool_preprocess_nil (hp ▸ hpre).symm))
    have hte : ∀ v, CBETASearcher_search_by_embedding sqrt st v k = [] := by
      intro v
      unfold CBETASearcher_search_by_embedding
      rw [hembnil hp]
      simp [similarityList, argsortNeg]
    unfold CBETASearcher_search
    by_cases h : st.has_embedding = true
    · rw [if_pos h]
      cases encode query with
      | ok qv' => exact hte qv'
      | error e => exact hkw
    · rw [if_neg h]
      exact hkw
  exact ⟨hkwlen paras query k, hreblen, htslen, hkwnil,
    fun hp => ⟨hrebnil hp, htsnil hp⟩⟩

/-- Witness for `search_top_k_bound` on an empty corpus with `top_k = 3`. -/
theorem search_top_k_bound_witness :
    (CBETARetriever_search_by_keywords [] (toL "菩薩") 3).length ≤ 3 ∧
    (CBETARetriever_search_by_embedding (fun x => x) sampleEngineEmpty [] 3).length ≤ 3 ∧
    (CBETASearcher_search (fun x => x) (fun _ => Except.error []) sampleEngineEmpty
        (toL "菩薩") 3).length ≤ 3 ∧
    (([] : List Para) = [] → CBETARetriever_search_by_keywords [] (toL "菩薩") 3 = []) ∧
    (sampleEngineEmpty.paras = [] →
      CBETARetriever_search_by_embedding (fun x => x) sampleEngineEmpty [] 3 = [] ∧
      CBETASearcher_search (fun x => x) (fun _ => Except.error []) sampleEngineEmpty
          (toL "菩薩") 3 = []) :=
  search_top_k_bound (fun x => x) (fun _ => Except.error []) sampleEngineEmpty [] []
    (toL "菩薩") 3 rfl rfl

/-- Dot product against an all-zero left vector is zero. -/
theorem dotQ_zero_left : ∀ (e q : List ℚ), (∀ x ∈ e, x = 0) → dotQ e q = 0
  | [], _, _ => rfl
  | _ :: _, [], _ => rfl
  | a :: e', b :: q', h => by
    have ha : a = 0 := h a (List.mem_cons_self _ _)
    have ih := dotQ_zero_left e' q' (fun x hx => h x (List.mem_cons_of_mem _ hx))
    unfold dotQ at ih ⊢
    rw [List.zipWith_cons_cons, List.sum_cons, ha, zero_mul, zero_add]
    exact ih

/-- Dot product against an all-zero right vector is zero. -/
theorem dotQ_zero_right : ∀ (e q : List ℚ), (∀ x ∈ q, x = 0) → dotQ e q = 0
  | [], _, _ => rfl
  | _ :: _, [], _ => rfl
  | a :: e', b :: q', h => by
    have hb : b = 0 := h b (List.mem_cons_self _ _)
    have ih := dotQ_zero_right e' q' (fun x hx => h x (List.mem_cons_of_mem _ hx))
    unfold dotQ at ih ⊢
    rw [List.zipWith_cons_cons, List.sum_cons, hb, mul_zero, zero_add]
    exact ih

/-- Sum of squares of an all-zero vector is zero. -/
theorem sumSq_zero : ∀ (e : List ℚ), (∀ x ∈ e, x = 0) → sumSq e = 0
  | [], _ => rfl
  | a :: e', h => by
    have ha : a = 0 := h a (List.mem_cons_self _ _)
    have ih := sumSq_zero e' (fun x hx => h x (List.mem_cons_of_mem _ hx))
    unfold sumSq at ih ⊢
    rw [List.map_cons, List.sum_cons, ha, zero_mul, zero_add]
    exact ih

/-- C2 (amended): when the query vector or a paragraph vector is the zero
vector (zero norm), the similarity computation of `search_by_embedding` does
not raise — it is a total function — but the affected entry evaluates to NaN
(`0/0` in numpy), not to a lowest numeric score.  `sqrt` is any square-root
function with `sqrt 0 = 0` (true of the float `sqrt` used by
`np.linalg.norm`). -/
theorem zero_norm_similarity_nan (sqrt : ℚ → ℚ) (h0 : sqrt 0 = 0)
    (E : List (List ℚ)) (qv : List ℚ) (i : ℕ) (hi : i < E.length)
    (hz : (∀ x ∈ E[i], x = (0 : ℚ)) ∨ (∀ x ∈ qv, x = (0 : ℚ))) :
    (similarityList sqrt E qv)[i]? = some NpVal.nan := by
  unfold similarityList
  rw [List.getElem?_map, List.getElem?_eq_getElem hi]
  rcases hz with hz | hz
  · have hd : dotQ E[i] qv = 0 := dotQ_zero_left _ _ hz
    have hs : sumSq E[i] = 0 := sumSq_zero _ hz
    simp [npDiv, hd, hs, h0]
  · have hd : dotQ E[i] qv = 0 := dotQ_zero_right _ _ hz
    have hs : sumSq qv = 0 := sumSq_zero _ hz
    simp [npDiv, hd, hs, h0]

/-- Witness for `zero_norm_similarity_nan`: the first embedding is the zero
vector, its similarity entry is NaN.  (`fun x => x` agrees with the true square
root on the values 0 and 1 arising here.) -/
theorem zero_norm_similarity_nan_witness :
    (similarityList (fun x => x) [[0, 0], [1, 0]] [1, 0])[0]? = some NpVal.nan :=
  zero_norm_similarity_nan (fun x => x) rfl [[0, 0], [1, 0]] [1, 0] 0 (by decide)
    (Or.inl (by intro x hx; simp at hx; exact hx))

/-- C2 counterexample: at a concrete corpus whose first paragraph embedding is
the zero vector, the similarity array is `[nan, 1.0]` — the zero-norm entry is
NaN, not a lowest numeric score as the claim states. -/
theorem zero_norm_similarity_counterexample :
    similarityList (fun x => x) [[0, 0], [1, 0]] [1, 0] = [NpVal.nan, NpVal.num 1] ∧
    (∀ q : ℚ, NpVal.nan ≠ NpVal.num q) := by
  constructor
  · unfold similarityList dotQ sumSq npDiv
    norm_num
  · intro q h
    cases h

/-- C3 (amended): in `CBETASearcher.search`, a runtime failure while encoding
the query is caught at the query boundary and the engine falls back to keyword
search for that query only: the state (in particular `has_embedding`) is not
modified, and the very same state with a succeeding encode takes the embedding
path.  (`CBETARetriever._run` behaves differently; see the counterexample.) -/
theorem tool_search_fallback (sqrt : ℚ → ℚ) (st : Engine) (query : Str) (top_k : ℕ)
    (encodeF encodeOk : Str → Except Str (List ℚ)) (e : Str) (qv : List ℚ)
    (hhe : st.has_embedding = true)
    (hf : encodeF query = .error e) (hok : encodeOk query = .ok qv) :
    CBETASearcher_search sqrt encodeF st query top_k = CBETASearcher_keyword st query top_k ∧
    CBETASearcher_search sqrt encodeOk st query top_k =
      CBETASearcher_search_by_embedding sqrt st qv top_k := by
  constructor
  · unfold CBETASearcher_search
    rw [if_pos hhe, hf]
  · unfold CBETASearcher_search
    rw [if_pos hhe, hok]

/-- An engine state with one paragraph and one embedding. -/
def sampleEngineOne : Engine :=
  { docs := []
    paras := [samplePara "T01_p0" "苦集滅道"]
    embeddings := [[1]]
    has_embedding := true }

/-- Witness for `tool_search_fallback` at a concrete state and query. -/
theorem tool_search_fallback_witness :
    CBETASearcher_search (fun x => x) (fun _ => .error (toL "boom")) sampleEngineOne
        (toL "苦") 3 =
      CBETASearcher_keyword sampleEngineOne (toL "苦") 3 ∧
    CBETASearcher_search (fun x => x) (fun _ => .ok [1]) sampleEngineOne (toL "苦") 3 =
      CBETASearcher_search_by_embedding (fun x => x) sampleEngineOne [1] 3 :=
  tool_search_fallback (fun x => x) sampleEngineOne (toL "苦") 3
    (fun _ => .error (toL "boom")) (fun _ => .ok [1]) (toL "boom") [1] rfl rfl rfl

/-- C3 counterexample: in `CBETARetriever._run`, a runtime failure while
encoding the query is re-raised as `ToolException("检索经文时出错: ...")` and
propagates past the query boundary — no keyword fallback happens for that
query, even though the keyword search would have returned a result. -/
theorem retriever_run_propagates_counterexample :
    CBETARetriever_run (fun x => x) (fun _ => .error (toL "boom")) sampleEngineOne
        (toL "苦") =
      .error (toL "检索经文时出错: boom") ∧
    CBETARetriever_search_by_keywords sampleEngineOne.paras (toL "苦") 3 ≠ [] := by
  constructor
  · rfl
  · decide

/-- The fuelled digit function agrees with `Nat.digits 10` when the fuel
dominates the number. -/
theorem natDigitsF_eq (fuel : ℕ) : ∀ n : ℕ, n ≤ fuel → natDigitsF fuel n = Nat.digits 10 n := by
  induction fuel with
  | zero =>
    intro n h
    have hn : n = 0 := Nat.le_zero.mp h
    subst hn
    exact (Nat.digits_zero 10).symm
  | succ f ih =>
    intro n h
    cases n with
    | zero => exact (Nat.digits_zero 10).symm
    | succ m =>
      rw [natDigitsF, Nat.digits_def' (by norm_num : (1 : ℕ) < 10) (Nat.succ_pos m)]
      have hdiv : (m + 1) / 10 < m + 1 := Nat.div_lt_self (Nat.succ_pos m) (by norm_num)
      rw [ih ((m + 1) / 10) (by omega)]

/-- `digitChar` is injective on decimal digits. -/
theorem digitChar_inj {a b : ℕ} (ha : a < 10) (hb : b < 10)
    (h : digitChar a = digitChar b) : a = b := by
  revert h
  interval_cases a <;> interval_cases b <;> decide

/-- `List.map digitChar` is injective on lists of decimal digits. -/
theorem map_digitChar_inj : ∀ {l1 l2 : List ℕ}, (∀ x ∈ l1, x < 10) → (∀ x ∈ l2, x < 10) →
    l1.map digitChar = l2.map digitChar → l1 = l2
  | [], [], _, _, _ => rfl
  | [], _ :: _, _, _, h => by simp at h
  | _ :: _, [], _, _, h => by simp at h
  | a :: l1, b :: l2, h1, h2, h => by
    rw [List.map_cons, List.map_cons] at h
    injection h with hh ht
    rw [digitChar_inj (h1 a (List.mem_cons_self _ _)) (h2 b (List.mem_cons_self _ _)) hh,
      map_digitChar_inj (fun x hx => h1 x (List.mem_cons_of_mem _ hx))
        (fun x hx => h2 x (List.mem_cons_of_mem _ hx)) ht]

/-- The decimal rendering of a natural number is injective. -/
theorem natChars_inj : ∀ {m n : ℕ}, natChars m = natChars n → m = n := by
  intro m n h
  unfold natChars at h
  by_cases hm : m = 0 <;> by_cases hn : n = 0
  · omega
  · exfalso
    rw [if_pos hm, if_neg hn, natDigitsF_eq n n le_rfl] at h
    have h' : (Nat.digits 10 n).map digitChar = ['0'] := by
      rw [← List.reverse_inj, h.symm]
      rfl
    have hd : Nat.digits 10 n = [0] :=
      map_digitChar_inj (fun x hx => Nat.digits_lt_base (by norm_num) hx)
        (by intro x hx; simp at hx; omega) (by rw [h']; rfl)
    have := Nat.ofDigits_digits 10 n
    rw [hd] at this
    simp [Nat.ofDigits] at this
    omega
  · exfalso
    rw [if_neg hm, if_pos hn, natDigitsF_eq m m le_rfl] at h
    have h' : (Nat.digits 10 m).map digitChar = ['0'] := by
      rw [← List.reverse_inj, h]
      rfl
    have hd : Nat.digits 10 m = [0] :=
      map_digitChar_inj (fun x hx => Nat.digits_lt_base (by norm_num) hx)
        (by intro x hx; simp at hx; omega) (by rw [h']; rfl)
    have := Nat.ofDigits_digits 10 m
    rw [hd] at this
    simp [Nat.ofDigits] at this
    omega
  · rw [if_neg hm, if_neg hn, natDigitsF_eq m m le_rfl, natDigitsF_eq n n le_rfl,
      List.reverse_inj] at h
    have hd := map_digitChar_inj (fun x hx => Nat.digits_lt_base (by norm_num) hx)
      (fun x hx => Nat.digits_lt_base (by norm_num) hx) h
    have h1 := Nat.ofDigits_digits 10 m
    have h2 := Nat.ofDigits_digits 10 n
    rw [hd] at h1
    exact h1.symm.trans h2

/-- The decimal rendering contains no underscore. -/
theorem natChars_no_underscore (n : ℕ) : '_' ∉ natChars n := by
  unfold natChars
  by_cases h : n = 0
  · rw [if_pos h]
    decide
  · rw [if_neg h, natDigitsF_eq n n le_rfl]
    intro hmem
    rw [List.mem_reverse] at hmem
    obtain ⟨d, hd, hdc⟩ := List.mem_map.mp hmem
    have hlt : d < 10 := Nat.digits_lt_base (by norm_num) hd
    revert hdc
    interval_cases d <;> decide

/-- `takeWhile` passes over a prefix whose elements all satisfy the predicate. -/
theorem takeWhile_append_all {p : Char → Bool} :
    ∀ {xs ys : List Char}, (∀ x ∈ xs, p x = true) →
      (xs ++ ys).takeWhile p = xs ++ ys.takeWhile p
  | [], _, _ => rfl
  | x :: xs, ys, h => by
    rw [List.cons_append, List.takeWhile_cons, if_pos (h x (List.mem_cons_self _ _)),
      takeWhile_append_all (fun y hy => h y (List.mem_cons_of_mem _ hy)), List.cons_append]

/-- `dropWhile` skips a prefix whose elements all satisfy the predicate. -/
theorem dropWhile_append_all {p : Char → Bool} :
    ∀ {xs ys : List Char}, (∀ x ∈ xs, p x = true) →
      (xs ++ ys).dropWhile p = ys.dropWhile p
  | [], _, _ => rfl
  | x :: xs, ys, h => by
    rw [List.cons_append, List.dropWhile_cons, if_pos (h x (List.mem_cons_self _ _)),
      dropWhile_append_all (fun y hy => h y (List.mem_cons_of_mem _ hy))]

/-- Injectivity of the paragraph identifier scheme `f"{doc_id}_p{idx}"`:
because the decimal index contains no underscore, the last `"_p"` in the
identifier is unambiguous. -/
theorem pid_append_inj {a b : Str} {m n : ℕ}
    (h : a ++ toL "_p" ++ natChars m = b ++ toL "_p" ++ natChars n) :
    a = b ∧ m = n := by
  have hr := congrArg List.reverse h
  rw [List.reverse_append, List.reverse_append, List.reverse_append, List.reverse_append] at hr
  have hrp : (toL "_p").reverse = ['p', '_'] := rfl
  rw [hrp] at hr
  simp only [List.cons_append, List.nil_append] at hr
  -- hr : (natChars m).reverse ++ ('p' :: '_' :: a.reverse)
  --    = (natChars n).reverse ++ ('p' :: '_' :: b.reverse)
  have hq : ∀ (k : ℕ), ∀ x ∈ (natChars k).reverse, (!(x == '_')) = true := by
    intro k x hx
    rw [List.mem_reverse] at hx
    simp only [Bool.not_eq_eq_eq_not, Bool.not_true, beq_eq_false_iff_ne, ne_eq]
    intro hxe
    exact natChars_no_underscore k (hxe ▸ hx)
  have htake : ∀ (k : ℕ) (t : Str),
      ((natChars k).reverse ++ ('p' :: '_' :: t)).takeWhile (fun c => !(c == '_')) =
        (natChars k).reverse ++ ['p'] := by
    intro k t
    rw [takeWhile_append_all (hq k), List.takeWhile_cons, if_pos (by decide),
      List.takeWhile_cons, if_neg (by decide)]
  have hdrop : ∀ (k : ℕ) (t : Str),
      ((natChars k).reverse ++ ('p' :: '_' :: t)).dropWhile (fun c => !(c == '_')) =
        '_' :: t := by
    intro k t
    rw [dropWhile_append_all (hq k), List.dropWhile_cons, if_pos (by decide),
      List.dropWhile_cons, if_neg (by decide)]
  have ht := congrArg (List.takeWhile (fun c => !(c == '_'))) hr
  have hd := congrArg (List.dropWhile (fun c => !(c == '_'))) hr
  rw [htake m, htake n] at ht
  rw [hdrop m, hdrop n] at hd
  have hmn : m = n := by
    have := List.append_cancel_right ht
    rw [List.reverse_inj] at this
    exact natChars_inj this
  have hab : a = b := by
    injection hd with _ hd2
    rw [List.reverse_inj] at hd2
    exact hd2
  exact ⟨hab, hmn⟩

/-- The paragraph records produced from one document (the body of the
`for doc in self.docs` loop of `_preprocess_paragraphs`). -/
def docBlock (splitter : Str → List Str) (doc : PyDoc) : List Para :=
  (splitter (doc.content.getD [])).enum.filterMap (fun ip =>
    if (pyStrip ip.2).isEmpty then none
    else some {
      id := doc.id.getD [] ++ toL "_p" ++ natChars ip.1
      doc_id := doc.id.getD []
      title := doc.title.getD []
      content := pyStrip ip.2
      paragraph_index := ip.1 })

/-- Preprocessing is the concatenation of the per-document blocks. -/
theorem preprocess_eq_flatMap (splitter : Str → List Str) (docs : List PyDoc) :
    preprocessParagraphs splitter docs = docs.flatMap (docBlock splitter) := rfl

/-- Every paragraph id built from a document has the shape
`doc_id ++ "_p" ++ <decimal index>`. -/
theorem docBlock_id {splitter : Str → List Str} {doc : PyDoc} {p : Para}
    (hp : p ∈ docBlock splitter doc) :
    ∃ idx, p.id = doc.id.getD [] ++ toL "_p" ++ natChars idx := by
  obtain ⟨ip, _, hip⟩ := List.mem_filterMap.mp hp
  by_cases hc : (pyStrip ip.2).isEmpty
  · rw [if_pos hc] at hip
    cases hip
  · rw [if_neg hc] at hip
    injection hip with hip'
    exact ⟨ip.1, by rw [← hip']⟩

/-- A `filterMap` over an enumerated list whose values are determined
injectively by the position index has no duplicates. -/
theorem nodup_filterMap_fst {α β : Type} (f : ℕ × α → Option β) (F : ℕ → β)
    (hval : ∀ ip b, f ip = some b → b = F ip.1)
    (hinj : ∀ i j, F i = F j → i = j) :
    ∀ l : List (ℕ × α), (l.map Prod.fst).Nodup → (l.filterMap f).Nodup
  | [], _ => List.nodup_nil
  | ip :: l, h => by
    rw [List.map_cons, List.nodup_cons] at h
    rw [List.filterMap_cons]
    cases hf : f ip with
    | none => exact nodup_filterMap_fst f F hval hinj l h.2
    | some b =>
      refine List.nodup_cons.mpr ⟨?_, nodup_filterMap_fst f F hval hinj l h.2⟩
      intro hmem
      obtain ⟨jp, hjl, hjf⟩ := List.mem_filterMap.mp hmem
      have hb : b = F ip.1 := hval ip b hf
      have hbj : b = F jp.1 := hval jp b hjf
      have hfst : ip.1 = jp.1 := hinj _ _ (hb.symm.trans hbj)
      exact h.1 (by rw [hfst]; exact List.mem_map_of_mem Prod.fst hjl)

/-- Within one document the paragraph identifiers are distinct. -/
theorem docBlock_ids_nodup (splitter : Str → List Str) (doc : PyDoc) :
    ((docBlock splitter doc).map Para.id).Nodup := by
  unfold docBlock
  rw [List.map_filterMap]
  apply nodup_filterMap_fst
    (F := fun i => doc.id.getD [] ++ toL "_p" ++ natChars i)
  · intro ip b hb
    by_cases hc : (pyStrip ip.2).isEmpty
    · rw [if_pos hc] at hb
      simp at hb
    · rw [if_neg hc] at hb
      simp only [Option.map_some'] at hb
      injection hb with hb'
      rw [← hb']
  · intro i j hij
    exact (pid_append_inj hij).2
  · rw [List.enum_map_fst]
    exact List.nodup_range _

/-- C8 (amended): provided the loaded documents have pairwise-distinct ids
(after the `doc.get('id', '')` defaulting), all paragraph identifiers
`"<doc_id>_p<index>"` are unique across the corpus.  The statement covers both
preprocessing routines, which differ only in the segmenter `splitter`.
Without that proviso uniqueness fails; see the counterexample. -/
theorem preprocess_ids_nodup (splitter : Str → List Str) (docs : List PyDoc)
    (h : (docs.map (fun d => d.id.getD [])).Nodup) :
    ((preprocessParagraphs splitter docs).map Para.id).Nodup := by
  rw [preprocess_eq_flatMap]
  induction docs with
  | nil => simp
  | cons doc docs ih =>
    rw [List.map_cons, List.nodup_cons] at h
    rw [List.flatMap_cons, List.map_append, List.nodup_append]
    refine ⟨docBlock_ids_nodup splitter doc, ih h.2, ?_⟩
    intro x hx1 hx2
    obtain ⟨p, hp, hpx⟩ := List.mem_map.mp hx1
    obtain ⟨idx, hid⟩ := docBlock_id hp
    obtain ⟨q, hq, hqx⟩ := List.mem_map.mp hx2
    obtain ⟨d2, hd2, hq2⟩ := List.mem_flatMap.mp hq
    obtain ⟨jdx, hid2⟩ := docBlock_id hq2
    rw [hid] at hpx
    rw [hid2] at hqx
    have heq := hpx.trans hqx.symm
    have hsame : doc.id.getD [] = d2.id.getD [] := (pid_append_inj heq).1
    exact h.1 (by rw [hsame]; exact List.mem_map_of_mem _ hd2)

/-- Witness for `preprocess_ids_nodup`: two documents with distinct ids. -/
theorem preprocess_ids_nodup_witness :
    ((preprocessParagraphs split_text_to_paragraphs
        [{ id := some (toL "T01"), title := some (toL "甲"), content := some (toL "ab") },
         { id := some (toL "T02"), title := some (toL "乙"), content := some (toL "cd") }]).map
      Para.id).Nodup :=
  preprocess_ids_nodup _ _ (by decide)

/-- C8 counterexample: two documents carrying the same id (nothing in the code
deduplicates ids, and missing ids all default to the empty string) produce two
distinct paragraphs with the identical identifier `"T_p0"`. -/
theorem duplicate_doc_ids_counterexample :
    ¬ (((CBETARetriever_preprocess_paragraphs
        [{ id := some (toL "T"), title := some (toL "甲"), content := some (toL "ab") },
         { id := some (toL "T"), title := some (toL "乙"), content := some (toL "cd") }]).map
      Para.id).Nodup) := by
  decide

/-! ### Losslessness of the regex splits (claim C7) -/

/-- Re-joining the blank-line split with its separators restores the text. -/
theorem goBlankF_interleave :
    ∀ (fuel : ℕ) (cs acc : List Char),
      interleave (goBlankF fuel cs acc).1 (goBlankF fuel cs acc).2 = acc.reverse ++ cs := by
  intro fuel
  induction fuel with
  | zero => intro cs acc; rfl
  | succ f ih =>
    intro cs acc
    cases cs with
    | nil => simp [goBlankF, interleave]
    | cons c rest =>
      rw [goBlankF]
      by_cases hc : c = '\n'
      · rw [if_pos hc]
        cases hk : nlRun rest with
        | some k =>
          simp only [interleave, ih]
          simp [List.append_assoc, List.take_append_drop, hc]
        | none => simp [ih, List.append_assoc]
      · rw [if_neg hc]
        simp [ih, List.append_assoc]

/-- The blank-line split returns one more segment than separators. -/
theorem goBlankF_len :
    ∀ (fuel : ℕ) (cs acc : List Char),
      (goBlankF fuel cs acc).1.length = (goBlankF fuel cs acc).2.length + 1 := by
  intro fuel
  induction fuel with
  | zero => intro cs acc; rfl
  | succ f ih =>
    intro cs acc
    cases cs with
    | nil => rfl
    | cons c rest =>
      rw [goBlankF]
      by_cases hc : c = '\n'
      · rw [if_pos hc]
        cases hk : nlRun rest with
        | some k => simp [ih]
        | none => exact ih rest (c :: acc)
      · rw [if_neg hc]
        exact ih rest (c :: acc)

/-- Flattening the captured punctuation split restores the text (the captured
separators are part of the returned list). -/
theorem puncCapF_flatten :
    ∀ (fuel : ℕ) (cs acc : List Char),
      (puncCapF fuel cs acc).flatten = acc.reverse ++ cs := by
  intro fuel
  induction fuel with
  | zero => intro cs acc; simp [puncCapF]
  | succ f ih =>
    intro cs acc
    cases cs with
    | nil => simp [puncCapF]
    | cons c rest =>
      rw [puncCapF]
      by_cases hc : (isTermPunct c && headIsWS rest) = true
      · rw [if_pos hc]
        simp [ih, List.append_assoc, List.take_append_drop]
      · rw [if_neg hc]
        simp [ih, List.append_assoc]

/-- The captured punctuation split is never empty. -/
theorem puncCapF_ne_nil :
    ∀ (fuel : ℕ) (cs acc : List Char), puncCapF fuel cs acc ≠ [] := by
  intro fuel
  induction fuel with
  | zero => intro cs acc; simp [puncCapF]
  | succ f ih =>
    intro cs acc
    cases cs with
    | nil => simp [puncCapF]
    | cons c rest =>
      rw [puncCapF]
      by_cases hc : (isTermPunct c && headIsWS rest) = true
      · rw [if_pos hc]
        simp
      · rw [if_neg hc]
        exact ih rest (c :: acc)

/-- Merging separator entries back into their segments preserves the flattened
text. -/
theorem mergePairs_flatten : ∀ l : List Str, (mergePairs l).flatten = l.flatten
  | [] => rfl
  | [s] => rfl
  | s :: d :: rest => by
    simp [mergePairs, List.flatten_cons, mergePairs_flatten rest, List.append_assoc]

/-- Merging a non-empty list yields a non-empty list. -/
theorem mergePairs_ne_nil : ∀ {l : List Str}, l ≠ [] → mergePairs l ≠ []
  | [], h => absurd rfl h
  | [_], _ => by simp [mergePairs]
  | _ :: _ :: _, _ => by simp [mergePairs]

/-- Interleaving with empty separators is flattening. -/
theorem interleave_replicate_nil :
    ∀ segs : List Str, segs ≠ [] →
      interleave segs (List.replicate (segs.length - 1) []) = segs.flatten
  | [], h => absurd rfl h
  | [s], _ => by simp [interleave]
  | s :: s2 :: rest, _ => by
    have ih := interleave_replicate_nil (s2 :: rest) (by simp)
    simp only [List.length_cons, Nat.add_sub_cancel, List.replicate_succ, interleave,
      List.flatten_cons] at ih ⊢
    rw [ih]
    simp

/-- Re-joining the tool's sentence split with its separators restores the
text. -/
theorem toolPuncGoF_interleave :
    ∀ (fuel : ℕ) (cs acc : List Char),
      interleave (toolPuncGoF fuel cs acc).1 (toolPuncGoF fuel cs acc).2 =
        acc.reverse ++ cs := by
  intro fuel
  induction fuel with
  | zero => intro cs acc; rfl
  | succ f ih =>
    intro cs acc
    cases cs with
    | nil => simp [toolPuncGoF, interleave]
    | cons c rest =>
      rw [toolPuncGoF]
      by_cases hc : c = '。'
      · rw [if_pos hc]
        cases hk : toolPuncMatch rest with
        | some k =>
          simp only [interleave, ih]
          simp [List.append_assoc, List.take_append_drop, hc]
        | none => simp [ih, List.append_assoc]
      · rw [if_neg hc]
        simp [ih, List.append_assoc]

/-- The tool's sentence split returns one more segment than separators. -/
theorem toolPuncGoF_len :
    ∀ (fuel : ℕ) (cs acc : List Char),
      (toolPuncGoF fuel cs acc).1.length = (toolPuncGoF fuel cs acc).2.length + 1 := by
  intro fuel
  induction fuel with
  | zero => intro cs acc; rfl
  | succ f ih =>
    intro cs acc
    cases cs with
    | nil => rfl
    | cons c rest =>
      rw [toolPuncGoF]
      by_cases hc : c = '。'
      · rw [if_pos hc]
        cases hk : toolPuncMatch rest with
        | some k => simp [ih]
        | none => exact ih rest (c :: acc)
      · rw [if_neg hc]
        exact ih rest (c :: acc)

/-- Every separator matched by the tool's sentence pattern starts with `'。'`. -/
theorem toolPuncGoF_sep_head :
    ∀ (fuel : ℕ) (cs acc : List Char), ∀ d ∈ (toolPuncGoF fuel cs acc).2,
      ∃ t, d = '。' :: t := by
  intro fuel
  induction fuel with
  | zero => intro cs acc d hd; simp [toolPuncGoF] at hd
  | succ f ih =>
    intro cs acc d hd
    cases cs with
    | nil => simp [toolPuncGoF] at hd
    | cons c rest =>
      rw [toolPuncGoF] at hd
      by_cases hc : c = '。'
      · rw [if_pos hc] at hd
        cases hk : toolPuncMatch rest with
        | some k =>
          rw [hk] at hd
          simp only [List.mem_cons] at hd
          rcases hd with hd | hd
          · exact ⟨rest.take k, by rw [hd, hc]⟩
          · exact ih (rest.drop k) [] d hd
        | none =>
          rw [hk] at hd
          exact ih rest (c :: acc) d hd
      · rw [if_neg hc] at hd
        exact ih rest (c :: acc) d hd

/-- Re-attaching `'。'` preserves the number of segments. -/
theorem toolReadd_length : ∀ l : List Str, (toolReadd l).length = l.length
  | [] => rfl
  | [_] => rfl
  | _ :: q :: rest => by
    simp [toolReadd, toolReadd_length (q :: rest)]

/-- Re-attaching `'。'` to the segments only moves characters out of the
separators: there is a matching separator list that restores the same text. -/
theorem toolReadd_interleave :
    ∀ (segs seps : List Str), segs.length = seps.length + 1 →
      (∀ d ∈ seps, ∃ t, d = '。' :: t) →
      ∃ seps' : List Str, seps'.length = seps.length ∧
        interleave (toolReadd segs) seps' = interleave segs seps
  | [], seps, h, _ => by simp at h
  | [s], [], _, _ => ⟨[], rfl, rfl⟩
  | [s], d :: dt, h, _ => by simp at h
  | s :: s2 :: rest, [], h, _ => by simp at h
  | s :: s2 :: rest, d :: dt, h, hd => by
    obtain ⟨t, rfl⟩ := hd d (List.mem_cons_self _ _)
    obtain ⟨seps', hlen, heq⟩ :=
      toolReadd_interleave (s2 :: rest) dt (by simpa using h)
        (fun d' hd' => hd d' (List.mem_cons_of_mem _ hd'))
    by_cases hs : s.getLast? = some '。'
    · refine ⟨('。' :: t) :: seps', by simp [hlen], ?_⟩
      simp only [toolReadd, if_pos hs, interleave, heq]
    · refine ⟨t :: seps', by simp [hlen], ?_⟩
      simp only [toolReadd, if_neg hs, interleave, heq]
      simp [List.append_assoc]

/-- C7: for every document body, both segmenters return only segments that are
non-empty after stripping, and each split is lossless: there are segments and
separators whose interleaving is byte-equal to the original body, and the
returned sequence is exactly those segments restricted to the ones that are
non-empty after stripping. -/
theorem segment_roundtrip (text : Str) :
    (∀ p ∈ split_text_to_paragraphs text, (pyStrip p).isEmpty = false) ∧
    (∃ segs seps : List Str, segs.length = seps.length + 1 ∧
      interleave segs seps = text ∧
      split_text_to_paragraphs text = segs.filter (fun p => !(pyStrip p).isEmpty)) ∧
    (∀ p ∈ tool_split_to_paragraphs text, (pyStrip p).isEmpty = false) ∧
    (∃ segs seps : List Str, segs.length = seps.length + 1 ∧
      interleave segs seps = text ∧
      tool_split_to_paragraphs text = segs.filter (fun p => !(pyStrip p).isEmpty)) := by
  refine ⟨?_, ?_, ?_, ?_⟩
  · intro p hp
    have h : p ∈ (if (blankSegs text).length ≤ 1 then mergePairs (puncCapF text.length text [])
        else blankSegs text).filter (fun q => !(pyStrip q).isEmpty) := hp
    simpa using (List.mem_filter.mp h).2
  · by_cases hb : (blankSegs text).length ≤ 1
    · have hne : mergePairs (puncCapF text.length text []) ≠ [] :=
        mergePairs_ne_nil (puncCapF_ne_nil text.length text [])
      refine ⟨mergePairs (puncCapF text.length text []),
        List.replicate ((mergePairs (puncCapF text.length text [])).length - 1) [],
        ?_, ?_, ?_⟩
      · rw [List.length_replicate]
        have hpos : 0 < (mergePairs (puncCapF text.length text [])).length :=
          List.length_pos.mpr hne
        omega
      · rw [interleave_replicate_nil _ hne, mergePairs_flatten]
        have := puncCapF_flatten text.length text []
        simpa using this
      · unfold split_text_to_paragraphs
        dsimp only
        rw [if_pos hb]
    · refine ⟨blankSegs text, (blankSplitPair text).2, ?_, ?_, ?_⟩
      · exact goBlankF_len text.length text []
      · have := goBlankF_interleave text.length text []
        simpa using this
      · unfold split_text_to_paragraphs
        dsimp only
        rw [if_neg hb]
  · intro p hp
    exact tool_split_strip_ne hp
  · by_cases hb : (blankSegs text).length ≤ 1
    · obtain ⟨seps', hl', heq⟩ :=
        toolReadd_interleave (toolPuncGoF text.length text []).1
          (toolPuncGoF text.length text []).2
          (toolPuncGoF_len text.length text [])
          (toolPuncGoF_sep_head text.length text [])
      refine ⟨toolReadd (toolPuncGoF text.length text []).1, seps', ?_, ?_, ?_⟩
      · rw [toolReadd_length, toolPuncGoF_len, hl']
      · rw [heq]
        have := toolPuncGoF_interleave text.length text []
        simpa using this
      · unfold tool_split_to_paragraphs
        dsimp only
        rw [if_pos hb]
    · refine ⟨blankSegs text, (blankSplitPair text).2, ?_, ?_, ?_⟩
      · exact goBlankF_len text.length text []
      · have := goBlankF_interleave text.length text []
        simpa using this
      · unfold tool_split_to_paragraphs
        dsimp only
        rw [if_neg hb]

/-! ### The partial-match pass of `search_by_keywords` (claim C1) -/

/-- `tagPart` keeps the paragraph id. -/
theorem tagPart_id (p : Para) (m : ℕ) : (tagPart p m).id = p.id := rfl

/-- A result list with distinct ids drawn from the corpus ids is no longer
than the corpus. -/
theorem ids_len_le (allIds : List Str) (res : List Para)
    (hn : (res.map Para.id).Nodup) (hs : ∀ r ∈ res, r.id ∈ allIds) :
    res.length ≤ allIds.length := by
  have hsub : (res.map Para.id).Subperm allIds :=
    List.Nodup.subperm hn (by
      intro x hx
      obtain ⟨r, hr, rfl⟩ := List.mem_map.mp hx
      exact hs r hr)
  simpa using hsub.length_le

/-- The selection predicate of the partial-match pass: not already selected,
and at least `max(1, len(query_words)//2)` query words matched. -/
def partCond (qw : List Str) (res : List Para) (p : Para) : Bool :=
  !(res.any fun r => r.id == p.id) &&
    decide (max 1 (qw.length / 2) ≤ countMatched qw p.content)

/-- As long as the corpus is smaller than `top_k` (so that the `break` can
never trigger) and all ids in sight are distinct, the partial-match loop
appends exactly the paragraphs satisfying its selection predicate, in corpus
order. -/
theorem secondPassLoop_eq (qw : List Str) (top_k : ℕ) (allIds : List Str)
    (hN : allIds.length < top_k) :
    ∀ (rest res : List Para),
      (res.map Para.id).Nodup →
      (∀ r ∈ res, r.id ∈ allIds) →
      ((rest.map Para.id).Nodup) →
      (∀ p ∈ rest, p.id ∈ allIds) →
      secondPassLoop qw top_k rest res =
        res ++ (rest.filter (partCond qw res)).map
          (fun p => tagPart p (countMatched qw p.content)) := by
  intro rest
  induction rest with
  | nil => intro res _ _ _ _; simp [secondPassLoop]
  | cons p rest ih =>
    intro res hresN hresS hrestN hrestS
    rw [List.map_cons, List.nodup_cons] at hrestN
    unfold secondPassLoop
    dsimp only
    by_cases h1 : (res.any fun r => r.id == p.id) = true
    · rw [if_pos h1]
      have hcond : partCond qw res p = false := by
        unfold partCond
        rw [h1]
        rfl
      rw [List.filter_cons, if_neg (by rw [hcond]; simp),
        ih res hresN hresS hrestN.2 (fun q hq => hrestS q (List.mem_cons_of_mem _ hq))]
    · rw [if_neg h1]
      by_cases h2 : max 1 (qw.length / 2) ≤ countMatched qw p.content
      · rw [if_pos h2]
        have hpid : p.id ∉ res.map Para.id := by
          intro hmem
          obtain ⟨r, hr, hre⟩ := List.mem_map.mp hmem
          exact h1 (List.any_eq_true.mpr ⟨r, hr, by rw [hre]; exact beq_self_eq_true _⟩)
        have hresN' : ((res ++ [tagPart p (countMatched qw p.content)]).map Para.id).Nodup := by
          rw [List.map_append, List.nodup_append]
          refine ⟨hresN, by simp, ?_⟩
          intro x hx hx2
          simp only [List.map_cons, tagPart_id, List.map_nil, List.mem_singleton] at hx2
          exact hpid (hx2 ▸ hx)
        have hresS' : ∀ r ∈ res ++ [tagPart p (countMatched qw p.content)], r.id ∈ allIds := by
          intro r hr
          rcases List.mem_append.mp hr with hr | hr
          · exact hresS r hr
          · rw [List.mem_singleton.mp hr, tagPart_id]
            exact hrestS p (List.mem_cons_self _ _)
        have hlen : (res ++ [tagPart p (countMatched qw p.content)]).length ≤ allIds.length :=
          ids_len_le allIds _ hresN' hresS'
        rw [if_neg (by omega)]
        rw [ih (res ++ [tagPart p (countMatched qw p.content)]) hresN' hresS' hrestN.2
          (fun q hq => hrestS q (List.mem_cons_of_mem _ hq))]
        have hfeq : rest.filter (partCond qw (res ++ [tagPart p (countMatched qw p.content)])) =
            rest.filter (partCond qw res) := by
          apply List.filter_congr
          intro q hq
          unfold partCond
          rw [List.any_append]
          have hone : ([tagPart p (countMatched qw p.content)].any fun r => r.id == q.id)
              = false := by
            simp only [List.any_cons, List.any_nil, Bool.or_false, tagPart_id]
            rw [beq_eq_false_iff_ne]
            intro hpq
            exact hrestN.1 (hpq ▸ List.mem_map_of_mem Para.id hq)
          rw [hone, Bool.or_false]
        rw [hfeq]
        have hcondp : partCond qw res p = true := by
          simp [partCond, h1, h2]
        rw [List.filter_cons, if_pos hcondp, List.map_cons]
        simp [List.append_assoc]
      · rw [if_neg h2]
        have hcond : partCond qw res p = false := by
          simp [partCond, h2]
        rw [List.filter_cons, if_neg (by rw [hcond]; simp),
          ih res hresN hresS hrestN.2 (fun q hq => hrestS q (List.mem_cons_of_mem _ hq))]

/-- C1 (amended): in keyword mode, when paragraph ids are distinct and the
corpus has fewer paragraphs than `top_k` (so the pass runs over the whole
corpus and nothing is truncated), a paragraph not selected by the full-match
pass appears among the results as a partial match if and only if its
matched-query-word count (words counted with multiplicity in the
whitespace-split query) is at least `max(1, word_count // 2)` — half rounded
DOWN with a floor of one, not half rounded up as the claim states. -/
theorem keyword_second_pass_iff (paras : List Para) (query : Str) (top_k : ℕ) (p : Para)
    (hnd : (paras.map Para.id).Nodup)
    (hk : paras.length < top_k)
    (hp : p ∈ paras)
    (hfull : pyContains p.content query = false) :
    (∃ r ∈ CBETARetriever_search_by_keywords paras query top_k,
        r.id = p.id ∧ r.match_type = some (toL "partial")) ↔
      max 1 ((pySplit query).length / 2) ≤ countMatched (pySplit query) p.content := by
  set qw := pySplit query with hqw
  set full := (paras.filter (fun q => pyContains q.content query)).map tagFull with hfulldef
  have hfullN : (full.map Para.id).Nodup := by
    rw [hfulldef, List.map_map]
    have hmc : (paras.filter (fun q => pyContains q.content query)).map (Para.id ∘ tagFull) =
        (paras.filter (fun q => pyContains q.content query)).map Para.id :=
      List.map_congr_left (fun a _ => rfl)
    rw [hmc]
    exact List.Nodup.sublist (List.Sublist.map _ (List.filter_sublist _)) hnd
  have hfullS : ∀ r ∈ full, r.id ∈ paras.map Para.id := by
    intro r hr
    rw [hfulldef] at hr
    obtain ⟨q, hq, rfl⟩ := List.mem_map.mp hr
    show q.id ∈ paras.map Para.id
    exact List.mem_map_of_mem _ (List.mem_of_mem_filter hq)
  have hlenfull : full.length < top_k := by
    have h1 : full.length ≤ paras.length := by
      rw [hfulldef, List.length_map]
      exact List.length_filter_le _ _
    omega
  have hloop := secondPassLoop_eq qw top_k (paras.map Para.id)
    (by rw [List.length_map]; exact hk) paras full hfullN hfullS hnd
    (fun q hq => List.mem_map_of_mem _ hq)
  set adds := (paras.filter (partCond qw full)).map
    (fun q => tagPart q (countMatched qw q.content)) with haddsdef
  have hsearch : CBETARetriever_search_by_keywords paras query top_k =
      (List.insertionSort resLe (full ++ adds)).take top_k := by
    unfold CBETARetriever_search_by_keywords
    dsimp only
    rw [← hqw, ← hfulldef, if_pos hlenfull, hloop]
  have haddsN : (adds.map Para.id).Nodup := by
    rw [haddsdef, List.map_map]
    have hmc : (paras.filter (partCond qw full)).map
          (Para.id ∘ fun q => tagPart q (countMatched qw q.content)) =
        (paras.filter (partCond qw full)).map Para.id :=
      List.map_congr_left (fun a _ => rfl)
    rw [hmc]
    exact List.Nodup.sublist (List.Sublist.map _ (List.filter_sublist _)) hnd
  have haddsS : ∀ r ∈ adds, r.id ∈ paras.map Para.id := by
    intro r hr
    rw [haddsdef] at hr
    obtain ⟨q, hq, rfl⟩ := List.mem_map.mp hr
    show q.id ∈ paras.map Para.id
    exact List.mem_map_of_mem _ (List.mem_of_mem_filter hq)
  have hdisj : ∀ x ∈ full.map Para.id, x ∉ adds.map Para.id := by
    intro x hx hx2
    obtain ⟨r, hrf, rfl⟩ := List.mem_map.mp hx
    obtain ⟨a, ha, hax⟩ := List.mem_map.mp hx2
    rw [haddsdef] at ha
    obtain ⟨q, hqf, rfl⟩ := List.mem_map.mp ha
    have hc := (List.mem_filter.mp hqf).2
    unfold partCond at hc
    rw [Bool.and_eq_true] at hc
    have hnotany : (full.any fun r => r.id == q.id) = false := by
      have := hc.1
      rwa [Bool.not_eq_true'] at this
    have hrq : (r.id == q.id) = false := by
      have := List.any_eq_false.mp hnotany r hrf
      exact eq_false_of_ne_true this
    rw [beq_eq_false_iff_ne] at hrq
    exact hrq hax.symm
  have hresN2 : ((full ++ adds).map Para.id).Nodup := by
    rw [List.map_append, List.nodup_append]
    exact ⟨hfullN, haddsN, hdisj⟩
  have hresS2 : ∀ r ∈ full ++ adds, r.id ∈ paras.map Para.id := by
    intro r hr
    rcases List.mem_append.mp hr with hr | hr
    · exact hfullS r hr
    · exact haddsS r hr
  have hlen2 : (full ++ adds).length ≤ paras.length := by
    have h := ids_len_le (paras.map Para.id) (full ++ adds) hresN2 hresS2
    simpa using h
  have hperm : (List.insertionSort resLe (full ++ adds)).Perm (full ++ adds) :=
    List.perm_insertionSort _ _
  have htake : (List.insertionSort resLe (full ++ adds)).take top_k =
      List.insertionSort resLe (full ++ adds) :=
    List.take_of_length_le (by rw [hperm.length_eq]; omega)
  rw [hsearch, htake]
  constructor
  · rintro ⟨r, hr, hrid, hrmt⟩
    have hr' : r ∈ full ++ adds := hperm.mem_iff.mp hr
    rcases List.mem_append.mp hr' with hrf | hra
    · exfalso
      rw [hfulldef] at hrf
      obtain ⟨q, _, rfl⟩ := List.mem_map.mp hrf
      have hmt : some (toL "full") = some (toL "partial") := hrmt
      exact absurd hmt (by decide)
    · rw [haddsdef] at hra
      obtain ⟨q, hqf, rfl⟩ := List.mem_map.mp hra
      have hq_paras := List.mem_of_mem_filter hqf
      have hqid : q.id = p.id := hrid
      have hqp : q = p := List.inj_on_of_nodup_map hnd hq_paras hp hqid
      have hc := (List.mem_filter.mp hqf).2
      unfold partCond at hc
      rw [Bool.and_eq_true] at hc
      have := of_decide_eq_true hc.2
      rwa [hqp] at this
  · intro h2
    have hnotany : (full.any fun r => r.id == p.id) = false := by
      rw [List.any_eq_false]
      intro r hrf hbeq
      rw [hfulldef] at hrf
      obtain ⟨q, hqfil, rfl⟩ := List.mem_map.mp hrf
      have hqid : q.id = p.id := eq_of_beq hbeq
      have hqp : q = p := List.inj_on_of_nodup_map hnd (List.mem_of_mem_filter hqfil) hp hqid
      have := (List.mem_filter.mp hqfil).2
      rw [hqp] at this
      rw [this] at hfull
      cases hfull
    have hcond : partCond qw full p = true := by
      unfold partCond
      rw [hnotany]
      simp [h2]
    refine ⟨tagPart p (countMatched qw p.content), ?_, rfl, rfl⟩
    apply hperm.mem_iff.mpr
    apply List.mem_append_right
    rw [haddsdef]
    exact List.mem_map_of_mem _ (List.mem_filter.mpr ⟨hp, hcond⟩)

/-- C1 counterexample: for the three-word query `"a b c"` the claimed
threshold is `ceil(3/2) = 2`, but the code includes a paragraph matching only
one query word, because its threshold is `max(1, 3 // 2) = 1` (floor
division). -/
theorem partial_threshold_counterexample :
    CBETARetriever_search_by_keywords [samplePara "A" "a"] (toL "a b c") 5 =
      [tagPart (samplePara "A" "a") 1] ∧
    countMatched (pySplit (toL "a b c")) (toL "a") = 1 ∧
    1 < ((pySplit (toL "a b c")).length + 1) / 2 := by
  refine ⟨by decide, by decide, by decide⟩

/-- Witness for `keyword_second_pass_iff`: the same corpus and query as the
counterexample, where the floor threshold 1 is met. -/
theorem keyword_second_pass_iff_witness :
    (max 1 ((pySplit (toL "a b c")).length / 2) ≤
      countMatched (pySplit (toL "a b c")) (toL "a")) ∧
    (∃ r ∈ CBETARetriever_search_by_keywords [samplePara "A" "a"] (toL "a b c") 5,
        r.id = (samplePara "A" "a").id ∧ r.match_type = some (toL "partial")) :=
  ⟨by decide,
    (keyword_second_pass_iff [samplePara "A" "a"] (toL "a b c") 5 (samplePara "A" "a")
      (by decide) (by decide) (by decide) (by decide)).mpr (by decide)⟩

/-- Records built by preprocessing never carry the `matched_words` key, which
discharges the corpus-shape hypothesis of `keyword_search_empty_query` for
every really loaded corpus. -/
theorem preprocess_matched_words_none (splitter : Str → List Str) (docs : List PyDoc) :
    ∀ p ∈ preprocessParagraphs splitter docs, p.matched_words = none := by
  intro p hp
  rw [preprocess_eq_flatMap] at hp
  obtain ⟨doc, _, hpb⟩ := List.mem_flatMap.mp hp
  obtain ⟨ip, _, hip⟩ := List.mem_filterMap.mp hpb
  by_cases hc : (pyStrip ip.2).isEmpty
  · rw [if_pos hc] at hip
    cases hip
  · rw [if_neg hc] at hip
    injection hip with hip'
    rw [← hip']
